import Mathlib

/-!
Verification of the notemancy-server core logic: the vault file-tree builder
(`src/utils.rs`), the search-index synchronizer and fallback snippet
extractor (`src/search.rs`), and the frontmatter extraction of the
note-content endpoint (`src/main.rs`).

Rust strings are modelled as Lean `String` / `List Char`; byte-indexed
operations (Rust `str::find`, range slicing `s[a..b]`) work on the UTF-8
byte sequence, and an operation that would panic in Rust (slicing outside
char boundaries or with a reversed range) is modelled as returning `none`.
-/

namespace Notemancy

/-- Rust `str::to_lowercase`, modelled by per-character ASCII case folding. -/
def rustToLowercase (cs : List Char) : List Char :=
  cs.map Char.toLower

/-- Rust `Ord::cmp` on `String`: lexicographic comparison (UTF-8 byte order
coincides with code-point order, so character-wise comparison is faithful). -/
def strCmp : List Char → List Char → Ordering
  | [], [] => .eq
  | [], _ :: _ => .lt
  | _ :: _, [] => .gt
  | a :: as, b :: bs =>
      if a < b then .lt
      else if b < a then .gt
      else strCmp as bs

theorem strCmp_eq_iff (a b : List Char) : strCmp a b = .eq ↔ a = b := by
  induction a generalizing b with
  | nil => cases b <;> simp [strCmp]
  | cons x as ih =>
      cases b with
      | nil => simp [strCmp]
      | cons y bs =>
          by_cases hxy : x < y
          · simp [strCmp, hxy]
            intro h
            exact absurd (h ▸ hxy) (lt_irrefl y)
          · by_cases hyx : y < x
            · simp [strCmp, hxy, hyx]
              intro h
              exact absurd (h ▸ hyx) (lt_irrefl y)
            · have hxy' : x = y := le_antisymm (not_lt.mp hyx) (not_lt.mp hxy)
              subst hxy'
              simp [strCmp, hxy, hyx, ih]

theorem strCmp_gt_iff (a b : List Char) : strCmp a b = .gt ↔ strCmp b a = .lt := by
  induction a generalizing b with
  | nil => cases b <;> simp [strCmp]
  | cons x as ih =>
      cases b with
      | nil => simp [strCmp]
      | cons y bs =>
          by_cases hxy : x < y
          · have : ¬ y < x := asymm hxy
            simp [strCmp, hxy, this]
          · by_cases hyx : y < x
            · simp [strCmp, hxy, hyx]
            · simp [strCmp, hxy, hyx, ih]

theorem strCmp_lt_trans {a b c : List Char} (hab : strCmp a b = .lt)
    (hbc : strCmp b c = .lt) : strCmp a c = .lt := by
  induction a generalizing b c with
  | nil =>
      cases b with
      | nil => simp [strCmp] at hab
      | cons y bs => cases c <;> simp [strCmp] at hbc ⊢
  | cons x as ih =>
      cases b with
      | nil => simp [strCmp] at hab
      | cons y bs =>
          cases c with
          | nil => simp [strCmp] at hbc
          | cons z cs =>
              by_cases hxy : x < y
              · by_cases hyz : y < z
                · have hxz : x < z := lt_trans hxy hyz
                  simp [strCmp, hxz]
                · by_cases hzy : z < y
                  · simp [strCmp, hyz, hzy] at hbc
                  · have hyz' : y = z := le_antisymm (not_lt.mp hzy) (not_lt.mp hyz)
                    subst hyz'
                    simp [strCmp, hxy]
              · by_cases hyx : y < x
                · simp [strCmp, hxy, hyx] at hab
                · have hxy' : x = y := le_antisymm (not_lt.mp hyx) (not_lt.mp hxy)
                  subst hxy'
                  simp only [strCmp, hxy, if_neg hxy, if_neg hyx] at hab
                  by_cases hyz : x < z
                  · simp [strCmp, hyz]
                  · by_cases hzy : z < x
                    · simp [strCmp, hyz, hzy] at hbc
                    · have hyz' : x = z := le_antisymm (not_lt.mp hzy) (not_lt.mp hyz)
                      subst hyz'
                      simp only [strCmp, if_neg hyz, if_neg hzy] at hbc ⊢
                      exact ih hab hbc

/-- Comparison result `≤ Ordering.eq`, i.e. "not greater": the order used by
the claims about case-insensitive ascending sorting. -/
def strLe (a b : List Char) : Prop := strCmp a b ≠ .gt

theorem strLe_iff (a b : List Char) : strLe a b ↔ strCmp a b = .lt ∨ a = b := by
  unfold strLe
  rcases h : strCmp a b with _ | _ | _
  · simp
  · simp [(strCmp_eq_iff a b).mp h]
  · constructor
    · intro hfalse; exact absurd rfl hfalse
    · rintro (h1 | h1)
      · exact absurd h1 (by simp)
      · subst h1
        rw [(strCmp_eq_iff a a).mpr rfl] at h
        exact absurd h (by simp)

theorem strLe_trans {a b c : List Char} (hab : strLe a b) (hbc : strLe b c) :
    strLe a c := by
  rcases (strLe_iff a b).mp hab with h1 | h1
  · rcases (strLe_iff b c).mp hbc with h2 | h2
    · exact (strLe_iff a c).mpr (Or.inl (strCmp_lt_trans h1 h2))
    · subst h2; exact (strLe_iff a b).mpr (Or.inl h1)
  · subst h1; exact hbc

theorem strLe_total (a b : List Char) : strLe a b ∨ strLe b a := by
  rcases h : strCmp a b with _ | _ | _
  · exact Or.inl (by simp [strLe, h])
  · exact Or.inl (by simp [strLe, h])
  · refine Or.inr ?_
    have := (strCmp_gt_iff a b).mp h
    simp [strLe, this]

/-- Index of the last occurrence of a dot in a file name, if any. -/
def lastDotIdx : List Char → Option Nat
  | [] => none
  | c :: rest =>
      match lastDotIdx rest with
      | some i => some (i + 1)
      | none => if c = '.' then some 0 else none

/-- Rust `Path::extension` applied to a bare file name: the portion after the
final dot, unless there is no dot or the only dot is the leading character
(hidden files such as `.gitignore` have no extension). -/
def pathExtension (name : String) : Option String :=
  match lastDotIdx name.data with
  | none => none
  | some 0 => none
  | some i => some (String.mk (name.data.drop (i + 1)))

/-- The `build_tree_node` markdown test from `src/utils.rs`: the extension
(defaulting to the empty string) is lowercased and compared with `md` and
`markdown`. -/
def isMarkdownName (name : String) : Bool :=
  let ext := rustToLowercase ((pathExtension name).getD "").data
  ext = "md".data || ext = "markdown".data

/-- The `TreeNode` struct of `src/utils.rs`. -/
structure TreeNode where
  name : String
  is_dir : Bool
  relpath : Option String
  title : Option String
  children : Option (List TreeNode)

/-- A directory subtree of the vault as seen by `build_tree_node`: an entry is
either a plain file or a directory with a list of entries. -/
inductive FsTree where
  | file (name : String)
  | dir (name : String) (children : List FsTree)

/-- Induction over `FsTree` with the usual membership hypothesis for the
children of a directory. -/
def FsTree.inductionOn (motive : FsTree → Prop)
    (hfile : ∀ n, motive (.file n))
    (hdir : ∀ n cs, (∀ t ∈ cs, motive t) → motive (.dir n cs)) : ∀ t, motive t
  | .file n => hfile n
  | .dir n cs => hdir n cs (fun t ht => FsTree.inductionOn motive hfile hdir t)
termination_by t => sizeOf t
decreasing_by
  have := List.sizeOf_lt_of_mem ht
  simp only [FsTree.dir.sizeOf_spec]
  omega

/-- Induction over `TreeNode` with the membership hypothesis for children. -/
def TreeNode.inductionOn (motive : TreeNode → Prop)
    (h : ∀ nd : TreeNode, (∀ l, nd.children = some l → ∀ x ∈ l, motive x) →
      motive nd) : ∀ nd, motive nd
  | ⟨n, d, r, t, c⟩ =>
      h ⟨n, d, r, t, c⟩ (fun l hl x hx => TreeNode.inductionOn motive h x)
termination_by nd => sizeOf nd
decreasing_by
  have h1 := List.sizeOf_lt_of_mem hx
  change c = some l at hl
  subst hl
  simp only [TreeNode.mk.sizeOf_spec, Option.some.sizeOf_spec]
  omega

/-- The comparator passed to `sort_by` in `sort_nodes` (`src/utils.rs`):
directories before files, then case-insensitive name comparison. -/
def nodeCmp (a b : TreeNode) : Ordering :=
  match a.is_dir, b.is_dir with
  | true, false => .lt
  | false, true => .gt
  | _, _ => strCmp (rustToLowercase a.name.data) (rustToLowercase b.name.data)

/-- The "may come no later than" relation induced by `nodeCmp`: a stable sort
by `nodeCmp` orders nodes by this relation. -/
def nodeRel (a b : TreeNode) : Prop := nodeCmp a b ≠ .gt

instance : DecidableRel nodeRel := fun a b =>
  inferInstanceAs (Decidable (nodeCmp a b ≠ .gt))

theorem nodeRel_trans {a b c : TreeNode} (hab : nodeRel a b) (hbc : nodeRel b c) :
    nodeRel a c := by
  unfold nodeRel nodeCmp at *
  cases ha : a.is_dir <;> cases hb : b.is_dir <;> cases hc : c.is_dir <;>
    simp [ha, hb, hc] at *
  · exact strLe_trans hab hbc
  · exact strLe_trans hab hbc

theorem nodeRel_total (a b : TreeNode) : nodeRel a b ∨ nodeRel b a := by
  unfold nodeRel nodeCmp
  cases ha : a.is_dir <;> cases hb : b.is_dir <;> simp [ha, hb]
  · exact strLe_total _ _
  · exact strLe_total _ _

instance : IsTrans TreeNode nodeRel := ⟨fun _ _ _ => nodeRel_trans⟩

instance : IsTotal TreeNode nodeRel := ⟨nodeRel_total⟩

mutual

/-- The recursive `sort_nodes` of `src/utils.rs`: stable-sort the given level
by `nodeCmp` (Rust `sort_by` is a stable sort, modelled by stable insertion
sort), then recursively sort the children of every node. -/
def sort_nodes (ns : List TreeNode) : List TreeNode :=
  List.insertionSort nodeRel (sortEach ns)
termination_by (sizeOf ns, 1)

/-- Apply `sortNode` to every node of a level. -/
def sortEach : List TreeNode → List TreeNode
  | [] => []
  | n :: rest => sortNode n :: sortEach rest
termination_by ns => (sizeOf ns, 0)

/-- Recursively sort the children of one node. -/
def sortNode : TreeNode → TreeNode
  | ⟨n, d, r, t, none⟩ => ⟨n, d, r, t, none⟩
  | ⟨n, d, r, t, some cs⟩ => ⟨n, d, r, t, some (sort_nodes cs)⟩
termination_by nd => (sizeOf nd, 0)

end

mutual

/-- The `build_tree_node` function of `src/utils.rs`, over a modelled
directory subtree. `g` models `notemancy_core::utils::get_title` (an external
fallible lookup); `dirRel` is the path of the parent directory relative to
the vault root. Returns `none` for entries that are skipped. -/
def build_tree_node (g : String → Option String) : FsTree → String → Option TreeNode
  | .file name, dirRel =>
      if isMarkdownName name then
        let relpath := if dirRel = "" then name else dirRel ++ "/" ++ name
        some ⟨name, false, some relpath, some ((g relpath).getD ""), none⟩
      else
        none
  | .dir name cs, dirRel =>
      let sub := if dirRel = "" then name else dirRel ++ "/" ++ name
      let children := buildChildren g cs sub
      if children.isEmpty then
        none
      else
        some ⟨name, true, none, none, some (sort_nodes children)⟩

/-- The `for entry in fs::read_dir` loop of `build_tree_node`: collect the
nodes built from the entries, dropping the skipped ones. -/
def buildChildren (g : String → Option String) : List FsTree → String → List TreeNode
  | [], _ => []
  | t :: ts, dirRel =>
      match build_tree_node g t dirRel with
      | some nd => nd :: buildChildren g ts dirRel
      | none => buildChildren g ts dirRel

end

/-- The `build_file_tree` function of `src/utils.rs`: build nodes for the
direct children of the vault root, sort, and fail if the result is empty. -/
def build_file_tree (g : String → Option String) (root : List FsTree) :
    Except String (List TreeNode) :=
  let nodes := buildChildren g root ""
  let nodes := sort_nodes nodes
  if nodes.isEmpty then .error "Vault directory is empty" else .ok nodes

mutual

/-- Whether a modelled subtree transitively contains at least one file whose
case-folded extension is `md` or `markdown`. -/
def containsMarkdown : FsTree → Bool
  | .file n => isMarkdownName n
  | .dir _ cs => anyMarkdown cs

/-- Whether any entry of a list of subtrees transitively contains a markdown
file. -/
def anyMarkdown : List FsTree → Bool
  | [] => false
  | t :: ts => containsMarkdown t || anyMarkdown ts

end

/-- Structural well-formedness of an emitted node: a non-directory node is a
markdown file with no children entry, and a directory node carries a
non-empty children list of well-formed nodes. -/
inductive GoodNode : TreeNode → Prop
  | file : ∀ nd : TreeNode, nd.is_dir = false → nd.children = none →
      isMarkdownName nd.name = true → GoodNode nd
  | dir : ∀ (nd : TreeNode) (cs : List TreeNode), nd.is_dir = true →
      nd.children = some cs → cs ≠ [] → (∀ c ∈ cs, GoodNode c) → GoodNode nd

/-- The ordering the spec claims for each level: all directory nodes precede
all file nodes, and within each group display names are non-descending under
case-insensitive comparison. -/
def nodeOrdered (a b : TreeNode) : Prop :=
  (b.is_dir = true → a.is_dir = true) ∧
  (a.is_dir = b.is_dir →
    strLe (rustToLowercase a.name.data) (rustToLowercase b.name.data))

/-- Every level of the subtree rooted at a node is ordered by `nodeOrdered`. -/
inductive TreeSorted : TreeNode → Prop
  | leaf : ∀ nd : TreeNode, nd.children = none → TreeSorted nd
  | node : ∀ (nd : TreeNode) (cs : List TreeNode), nd.children = some cs →
      List.Pairwise nodeOrdered cs → (∀ c ∈ cs, TreeSorted c) → TreeSorted nd

theorem nodeRel_imp_nodeOrdered {a b : TreeNode} (h : nodeRel a b) :
    nodeOrdered a b := by
  unfold nodeRel nodeCmp at h
  unfold nodeOrdered
  cases ha : a.is_dir <;> cases hb : b.is_dir <;> simp [ha, hb] at h ⊢
  · exact h
  · exact h

theorem sortEach_mem {x : TreeNode} {ns : List TreeNode} :
    x ∈ sortEach ns ↔ ∃ m ∈ ns, x = sortNode m := by
  induction ns with
  | nil => simp [sortEach]
  | cons n rest ih =>
      simp only [sortEach, List.mem_cons, ih]
      constructor
      · rintro (h | ⟨m, hm, rfl⟩)
        · exact ⟨n, by simp, h⟩
        · exact ⟨m, by simp [hm], rfl⟩
      · rintro ⟨m, hm, rfl⟩
        rcases hm with rfl | hm'
        · exact Or.inl rfl
        · exact Or.inr ⟨m, hm', rfl⟩

theorem sortEach_eq_nil {ns : List TreeNode} : sortEach ns = [] ↔ ns = [] := by
  cases ns <;> simp [sortEach]

theorem sort_nodes_mem {x : TreeNode} {ns : List TreeNode} :
    x ∈ sort_nodes ns ↔ ∃ m ∈ ns, x = sortNode m := by
  rw [sort_nodes, (List.perm_insertionSort nodeRel (sortEach ns)).mem_iff]
  exact sortEach_mem

theorem sort_nodes_eq_nil {ns : List TreeNode} : sort_nodes ns = [] ↔ ns = [] := by
  rw [sort_nodes]
  constructor
  · intro h
    have hp := List.perm_insertionSort nodeRel (sortEach ns)
    rw [h] at hp
    exact sortEach_eq_nil.mp hp.symm.eq_nil
  · rintro rfl
    simp [sortEach]

theorem sort_nodes_pairwise (ns : List TreeNode) :
    List.Pairwise nodeOrdered (sort_nodes ns) := by
  rw [sort_nodes]
  exact (List.sorted_insertionSort nodeRel (sortEach ns)).imp
    (fun h => nodeRel_imp_nodeOrdered h)

theorem sortNode_children_none {nd : TreeNode} (h : nd.children = none) :
    sortNode nd = nd := by
  obtain ⟨n, d, r, t, c⟩ := nd
  change c = none at h
  subst h
  rw [sortNode]

theorem sortNode_children_some {nd : TreeNode} {cs : List TreeNode}
    (h : nd.children = some cs) :
    sortNode nd = ⟨nd.name, nd.is_dir, nd.relpath, nd.title,
      some (sort_nodes cs)⟩ := by
  obtain ⟨n, d, r, t, c⟩ := nd
  change c = some cs at h
  subst h
  rw [sortNode]

theorem treeSorted_sortNode : ∀ nd, TreeSorted (sortNode nd) := by
  intro nd
  induction nd using TreeNode.inductionOn with
  | _ nd ih =>
      cases hc : nd.children with
      | none =>
          rw [sortNode_children_none hc]
          exact TreeSorted.leaf nd hc
      | some cs =>
          rw [sortNode_children_some hc]
          refine TreeSorted.node _ (sort_nodes cs) rfl (sort_nodes_pairwise cs) ?_
          intro c hcmem
          obtain ⟨m, hm, rfl⟩ := sort_nodes_mem.mp hcmem
          exact ih cs hc m hm

theorem goodNode_sortNode : ∀ nd, GoodNode nd → GoodNode (sortNode nd) := by
  intro nd
  induction nd using TreeNode.inductionOn with
  | _ nd ih =>
      intro hg
      cases hg with
      | file _ hdir hch hmd =>
          rw [sortNode_children_none hch]
          exact GoodNode.file nd hdir hch hmd
      | dir _ cs hdir hch hne hall =>
          rw [sortNode_children_some hch]
          refine GoodNode.dir _ (sort_nodes cs) hdir rfl ?_ ?_
          · intro h
            exact hne (sort_nodes_eq_nil.mp h)
          · intro c hcmem
            obtain ⟨m, hm, rfl⟩ := sort_nodes_mem.mp hcmem
            exact ih cs hch m hm (hall m hm)

theorem buildChildren_mem {g : String → Option String} {x : TreeNode}
    {ts : List FsTree} {dirRel : String} :
    x ∈ buildChildren g ts dirRel ↔ ∃ t ∈ ts, build_tree_node g t dirRel = some x := by
  induction ts with
  | nil => simp [buildChildren]
  | cons t rest ih =>
      rw [buildChildren]
      cases h : build_tree_node g t dirRel with
      | none =>
          simp only [ih]
          constructor
          · rintro ⟨m, hm, hb⟩
            exact ⟨m, by simp [hm], hb⟩
          · rintro ⟨m, hm, hb⟩
            rcases List.mem_cons.mp hm with rfl | hm'
            · rw [h] at hb
              cases hb
            · exact ⟨m, hm', hb⟩
      | some nd =>
          simp only [List.mem_cons, ih]
          constructor
          · rintro (rfl | ⟨m, hm, hb⟩)
            · exact ⟨t, by simp, h⟩
            · exact ⟨m, by simp [hm], hb⟩
          · rintro ⟨m, hm, hb⟩
            rcases hm with rfl | hm'
            · rw [h] at hb
              exact Or.inl (Option.some.inj hb).symm
            · exact Or.inr ⟨m, hm', hb⟩

theorem buildChildren_nil_iff {g : String → Option String} {ts : List FsTree}
    {dirRel : String}
    (H : ∀ t ∈ ts, (build_tree_node g t dirRel).isSome = containsMarkdown t) :
    buildChildren g ts dirRel = [] ↔ anyMarkdown ts = false := by
  induction ts with
  | nil => simp [buildChildren, anyMarkdown]
  | cons t rest ih =>
      have ht := H t (by simp)
      have ih' := ih (fun t' ht' => H t' (by simp [ht']))
      rw [buildChildren, anyMarkdown]
      cases h : build_tree_node g t dirRel with
      | none =>
          rw [h] at ht
          simp only [Option.isSome_none] at ht
          simp [← ht, ih']
      | some nd =>
          rw [h] at ht
          simp only [Option.isSome_some] at ht
          simp [← ht]

theorem build_tree_node_isSome :
    ∀ (g : String → Option String) (t : FsTree) (dirRel : String),
      (build_tree_node g t dirRel).isSome = containsMarkdown t := by
  intro g t
  induction t using FsTree.inductionOn with
  | hfile n =>
      intro dirRel
      rw [build_tree_node, containsMarkdown]
      by_cases h : isMarkdownName n <;> simp [h]
  | hdir n cs ih =>
      intro dirRel
      rw [build_tree_node, containsMarkdown]
      have hiff := @buildChildren_nil_iff g cs
        (if dirRel = "" then n else dirRel ++ "/" ++ n)
        (fun t' ht' => ih t' ht' _)
      by_cases h : buildChildren g cs (if dirRel = "" then n else dirRel ++ "/" ++ n) = []
      · have := hiff.mp h
        simp [h, this]
      · have : anyMarkdown cs = true := by
          rcases hy : anyMarkdown cs with _ | _
          · exact absurd (hiff.mpr hy) h
          · rfl
        simp [List.isEmpty_iff, h, this]

theorem build_tree_node_good :
    ∀ (g : String → Option String) (t : FsTree) (dirRel : String) (nd : TreeNode),
      build_tree_node g t dirRel = some nd → GoodNode nd := by
  intro g t
  induction t using FsTree.inductionOn with
  | hfile n =>
      intro dirRel nd h
      rw [build_tree_node] at h
      by_cases hmd : isMarkdownName n
      · simp only [hmd, if_true] at h
        cases h
        exact GoodNode.file _ rfl rfl hmd
      · simp [hmd] at h
  | hdir n cs ih =>
      intro dirRel nd h
      rw [build_tree_node] at h
      set sub := if dirRel = "" then n else dirRel ++ "/" ++ n with hsub
      by_cases hne : (buildChildren g cs sub).isEmpty
      · simp [hne] at h
      · simp only [hne, Bool.false_eq_true, if_false] at h
        cases h
        refine GoodNode.dir _ (sort_nodes (buildChildren g cs sub)) rfl rfl ?_ ?_
        · intro hnil
          rw [sort_nodes_eq_nil] at hnil
          rw [hnil] at hne
          exact hne rfl
        · intro c hcmem
          obtain ⟨m, hm, rfl⟩ := sort_nodes_mem.mp hcmem
          obtain ⟨t', ht', hb⟩ := buildChildren_mem.mp hm
          exact goodNode_sortNode m (ih t' ht' sub m hb)

/-- C1: a node is emitted by `build_tree_node` exactly when its subtree
transitively contains a file with case-folded extension `md` or `markdown`;
`build_file_tree` succeeds exactly when some root entry does; and every node
in the returned sequence is well-formed: directory nodes have non-empty
children lists and non-directory leaves are markdown files. -/
theorem build_file_tree_markdown_closure :
    (∀ (g : String → Option String) (t : FsTree) (dirRel : String),
      (build_tree_node g t dirRel).isSome = containsMarkdown t)
    ∧ (∀ (g : String → Option String) (root : List FsTree),
        (∃ res, build_file_tree g root = .ok res) ↔ anyMarkdown root = true)
    ∧ (∀ (g : String → Option String) (root : List FsTree) (res : List TreeNode),
        build_file_tree g root = .ok res → ∀ nd ∈ res, GoodNode nd) := by
  refine ⟨build_tree_node_isSome, ?_, ?_⟩
  · intro g root
    rw [build_file_tree]
    have hiff := @buildChildren_nil_iff g root ""
      (fun t' ht' => build_tree_node_isSome g t' "")
    by_cases h : buildChildren g root "" = []
    · have hany := hiff.mp h
      have : sort_nodes (buildChildren g root "") = [] := sort_nodes_eq_nil.mpr h
      simp [this, hany]
    · have hany : anyMarkdown root = true := by
        rcases hy : anyMarkdown root with _ | _
        · exact absurd (hiff.mpr hy) h
        · rfl
      have : sort_nodes (buildChildren g root "") ≠ [] := by
        intro hnil
        exact h (sort_nodes_eq_nil.mp hnil)
      simp [List.isEmpty_iff, this, hany]
  · intro g root res hres nd hnd
    rw [build_file_tree] at hres
    by_cases h : (sort_nodes (buildChildren g root "")).isEmpty
    · simp [h] at hres
    · simp only [h, Bool.false_eq_true, if_false, Except.ok.injEq] at hres
      subst hres
      obtain ⟨m, hm, rfl⟩ := sort_nodes_mem.mp hnd
      obtain ⟨t', ht', hb⟩ := buildChildren_mem.mp hm
      exact goodNode_sortNode m (build_tree_node_good g t' "" m hb)

/-- Witness for C1 at a concrete one-file vault. -/
theorem build_file_tree_markdown_closure_witness :
    GoodNode ⟨"a.md", false, some "a.md", some "", none⟩ := by
  have hb : build_file_tree (fun _ => none) [FsTree.file "a.md"]
      = .ok [⟨"a.md", false, some "a.md", some "", none⟩] := by
    simp [build_file_tree, buildChildren, build_tree_node, sort_nodes, sortEach,
      sortNode, List.insertionSort, isMarkdownName, pathExtension, lastDotIdx,
      rustToLowercase]
  have h := build_file_tree_markdown_closure.2.2 (fun _ => none)
    [FsTree.file "a.md"] [⟨"a.md", false, some "a.md", some "", none⟩]
  exact h hb _ (by simp)

/-- C2: every level of the tree returned by `build_file_tree` has all
directory nodes before all file nodes with case-insensitively non-descending
names within each group, and the underlying comparison relation is total. -/
theorem build_file_tree_sorted :
    (∀ (g : String → Option String) (root : List FsTree) (res : List TreeNode),
      build_file_tree g root = .ok res →
        List.Pairwise nodeOrdered res ∧ ∀ nd ∈ res, TreeSorted nd)
    ∧ (∀ a b : TreeNode, nodeRel a b ∨ nodeRel b a) := by
  constructor
  · intro g root res hres
    rw [build_file_tree] at hres
    by_cases h : (sort_nodes (buildChildren g root "")).isEmpty
    · simp [h] at hres
    · simp only [h, Bool.false_eq_true, if_false, Except.ok.injEq] at hres
      subst hres
      refine ⟨sort_nodes_pairwise _, ?_⟩
      intro nd hnd
      obtain ⟨m, _, rfl⟩ := sort_nodes_mem.mp hnd
      exact treeSorted_sortNode m
  · exact nodeRel_total

/-- Witness for C2 at a concrete two-file vault, where sorting reorders the
entries case-insensitively. -/
theorem build_file_tree_sorted_witness :
    List.Pairwise nodeOrdered
      [⟨"A.md", false, some "A.md", some "", none⟩,
       ⟨"b.md", false, some "b.md", some "", none⟩] := by
  have hb : build_file_tree (fun _ => none) [FsTree.file "b.md", FsTree.file "A.md"]
      = .ok [⟨"A.md", false, some "A.md", some "", none⟩,
             ⟨"b.md", false, some "b.md", some "", none⟩] := by
    simp [build_file_tree, buildChildren, build_tree_node, sort_nodes, sortEach,
      sortNode, List.insertionSort, List.orderedInsert, isMarkdownName,
      pathExtension, lastDotIdx, rustToLowercase, nodeRel, nodeCmp, strCmp]
  have h := build_file_tree_sorted.1 (fun _ => none)
    [FsTree.file "b.md", FsTree.file "A.md"]
    [⟨"A.md", false, some "A.md", some "", none⟩,
     ⟨"b.md", false, some "b.md", some "", none⟩]
  exact (h hb).1

/-- A note as enumerated by the storage collaborator's `list_notes`. -/
structure NoteMeta where
  relpath : String
  title : String

/-- The `NoteDoc` struct of `src/search.rs`: a document stored in the remote
search index. -/
structure NoteDoc where
  id : String
  title : String
  content : String
  path : String

/-- The document `index_all_notes` builds for one note: id and path are the
note's relpath, content is the frontmatter-stripped body read through the
storage collaborator. -/
def mkNoteDoc (read_note : String → String) (n : NoteMeta) : NoteDoc :=
  ⟨n.relpath, n.title, read_note n.relpath, n.relpath⟩

/-- The selection loop of `index_all_notes` (`src/search.rs`): walk the notes
in order, skip any note whose relpath is among the ids already present in the
remote index, and collect a `NoteDoc` for each remaining note. The returned
list is the batch submitted via `add_documents`. -/
def index_all_notes (existing_ids : List String) (notes : List NoteMeta)
    (read_note : String → String) : List NoteDoc :=
  match notes with
  | [] => []
  | n :: rest =>
      if n.relpath ∈ existing_ids then
        index_all_notes existing_ids rest read_note
      else
        ⟨n.relpath, n.title, read_note n.relpath, n.relpath⟩ ::
          index_all_notes existing_ids rest read_note

theorem index_all_notes_mem {existing_ids : List String} {notes : List NoteMeta}
    {read_note : String → String} {d : NoteDoc} :
    d ∈ index_all_notes existing_ids notes read_note ↔
      ∃ n ∈ notes, n.relpath ∉ existing_ids ∧ d = mkNoteDoc read_note n := by
  induction notes with
  | nil => simp [index_all_notes]
  | cons n rest ih =>
      rw [index_all_notes]
      by_cases h : n.relpath ∈ existing_ids
      · simp only [h, if_true, ih]
        constructor
        · rintro ⟨m, hm, hni, rfl⟩
          exact ⟨m, by simp [hm], hni, rfl⟩
        · rintro ⟨m, hm, hni, rfl⟩
          rcases List.mem_cons.mp hm with rfl | hm'
          · exact absurd h hni
          · exact ⟨m, hm', hni, rfl⟩
      · simp only [h, if_false, List.mem_cons, ih]
        constructor
        · rintro (rfl | ⟨m, hm, hni, rfl⟩)
          · exact ⟨n, by simp, h, rfl⟩
          · exact ⟨m, by simp [hm], hni, rfl⟩
        · rintro ⟨m, hm, hni, rfl⟩
          rcases hm with rfl | hm'
          · exact Or.inl rfl
          · exact Or.inr ⟨m, hm', hni, rfl⟩

theorem index_all_notes_covered {existing_ids : List String}
    {notes : List NoteMeta} {read_note : String → String}
    (H : ∀ n ∈ notes, n.relpath ∈ existing_ids) :
    index_all_notes existing_ids notes read_note = [] := by
  induction notes with
  | nil => rfl
  | cons n rest ih =>
      rw [index_all_notes]
      have hn := H n (by simp)
      simp only [hn, if_true]
      exact ih (fun m hm => H m (by simp [hm]))

/-- C3: the resync loop submits exactly the notes whose relpath is not among
the currently-indexed ids, and a second resync against the index extended by
the first submission (ids are the submitted relpaths) submits nothing. -/
theorem index_all_notes_spec :
    ∀ (existing_ids : List String) (notes : List NoteMeta)
      (read_note : String → String),
      (∀ d, d ∈ index_all_notes existing_ids notes read_note ↔
        ∃ n ∈ notes, n.relpath ∉ existing_ids ∧ d = mkNoteDoc read_note n)
      ∧ index_all_notes
          (existing_ids ++
            (index_all_notes existing_ids notes read_note).map (fun d => d.id))
          notes read_note = [] := by
  intro existing_ids notes read_note
  refine ⟨fun d => index_all_notes_mem, ?_⟩
  apply index_all_notes_covered
  intro n hn
  rw [List.mem_append]
  by_cases h : n.relpath ∈ existing_ids
  · exact Or.inl h
  · refine Or.inr ?_
    rw [List.mem_map]
    exact ⟨mkNoteDoc read_note n, index_all_notes_mem.mpr ⟨n, hn, h, rfl⟩, rfl⟩

/-- Witness for C3: with one of two notes already indexed, a second resync
after the first one submits zero documents. -/
theorem index_all_notes_spec_witness :
    index_all_notes
        (["a.md"] ++
          (index_all_notes ["a.md"] [⟨"a.md", "A"⟩, ⟨"b.md", "B"⟩]
            (fun _ => "body")).map (fun d => d.id))
        [⟨"a.md", "A"⟩, ⟨"b.md", "B"⟩] (fun _ => "body") = [] :=
  (index_all_notes_spec ["a.md"] [⟨"a.md", "A"⟩, ⟨"b.md", "B"⟩]
    (fun _ => "body")).2

/-- UTF-8 encoding of a character sequence, as the byte values Rust string
indexing operates on. -/
def utf8Bytes (cs : List Char) : List Nat :=
  cs.bind fun c => (String.utf8EncodeChar c).map (fun b => b.toNat)

/-- Rust `str::len`: the length in UTF-8 bytes. -/
def byteLen (cs : List Char) : Nat := (utf8Bytes cs).length

/-- Rust `str::find` for a pattern string: the byte offset of the first
occurrence of `pat` as a contiguous byte subsequence of `hay`, if any. -/
def byteFind (hay pat : List Nat) : Option Nat :=
  if pat.isPrefixOf hay then some 0
  else
    match hay with
    | [] => none
    | _ :: t => (byteFind t pat).map (fun i => i + 1)

/-- Take exactly `n` UTF-8 bytes from the front of a character sequence;
`none` when `n` overruns the text or falls inside a character (where Rust
slicing panics). -/
def takeBytes : List Char → Nat → Option (List Char)
  | _, 0 => some []
  | [], _ + 1 => none
  | c :: cs, n + 1 =>
      if c.utf8Size ≤ n + 1 then
        (takeBytes cs (n + 1 - c.utf8Size)).map (fun w => c :: w)
      else none

/-- Drop exactly `n` UTF-8 bytes from the front of a character sequence;
`none` when `n` overruns the text or falls inside a character. -/
def dropBytes : List Char → Nat → Option (List Char)
  | cs, 0 => some cs
  | [], _ + 1 => none
  | c :: cs, n + 1 =>
      if c.utf8Size ≤ n + 1 then dropBytes cs (n + 1 - c.utf8Size) else none

/-- Rust byte-range slicing `s[a..b]`: `none` models the panic on a reversed
range, an out-of-bounds index, or an index that is not a char boundary. -/
def rustSliceBytes (cs : List Char) (a b : Nat) : Option (List Char) :=
  if a ≤ b then (dropBytes cs a).bind (fun t => takeBytes t (b - a)) else none

/-- Rust `str::trim`: strip leading and trailing whitespace. -/
def rustTrim (cs : List Char) : List Char :=
  ((cs.dropWhile Char.isWhitespace).reverse.dropWhile Char.isWhitespace).reverse

/-- Accumulator loop for `rustSplitWhitespace`. -/
def splitWhitespaceAux : List Char → List Char → List (List Char)
  | [], acc => if acc.isEmpty then [] else [acc.reverse]
  | c :: rest, acc =>
      if c.isWhitespace then
        if acc.isEmpty then splitWhitespaceAux rest []
        else acc.reverse :: splitWhitespaceAux rest []
      else splitWhitespaceAux rest (c :: acc)

/-- Rust `str::split_whitespace`: the maximal non-empty runs of
non-whitespace characters. -/
def rustSplitWhitespace (cs : List Char) : List (List Char) :=
  splitWhitespaceAux cs []

/-- UTF-8 bytes of the lowercased text, the form in which `extract_snippet`
searches. -/
def lowerBytes (cs : List Char) : List Nat := utf8Bytes (rustToLowercase cs)

/-- One iteration of the `for word in words` loop of `extract_snippet`
(`src/search.rs`): update the best (minimum) offset with this term's first
occurrence, if any. -/
def bestStep (hay : List Nat) (best : Option Nat) (w : List Char) : Option Nat :=
  match byteFind hay (lowerBytes w), best with
  | some idx, some current => some (min current idx)
  | some idx, none => some idx
  | none, b => b

/-- The `for word in words` loop of `extract_snippet` (`src/search.rs`),
keeping the minimum byte offset over the query terms found so far. -/
def bestLoop (hay : List Nat) : List (List Char) → Option Nat → Option Nat
  | [], best => best
  | w :: rest, best => bestLoop hay rest (bestStep hay best w)

/-- The value of `best_index` in `extract_snippet`: minimum over the
whitespace-split query terms of the first byte offset of the term in the
lowercased content. -/
def best_index (text query : List Char) : Option Nat :=
  bestLoop (lowerBytes text) (rustSplitWhitespace query) none

/-- The `extract_snippet` function of `src/search.rs`. The byte window is cut
from the original (non-lowercased) text at offsets found in the lowercased
text; `none` models the Rust panic when the window boundaries fall inside a
multi-byte character. -/
def extract_snippet (text query : String) : Option String :=
  match best_index text.data query.data with
  | some pos =>
      let start := if pos > 50 then pos - 50 else 0
      let stop := min (byteLen text.data) (pos + 50)
      (rustSliceBytes text.data start stop).map
        (fun w => "..." ++ String.mk (rustTrim w) ++ "...")
  | none => some (String.mk (text.data.take 100))

theorem byteFind_none_iff (hay pat : List Nat) :
    byteFind hay pat = none ↔ ∀ j, ¬ pat.isPrefixOf (hay.drop j) = true := by
  induction hay with
  | nil =>
      constructor
      · intro hnone j
        rw [byteFind] at hnone
        by_cases h : pat.isPrefixOf ([] : List Nat)
        · simp [h] at hnone
        · rw [List.drop_nil]
          exact h
      · intro hall
        have h0 := hall 0
        rw [List.drop_zero] at h0
        simp [byteFind, h0]
  | cons b t ih =>
      constructor
      · intro hnone j
        rw [byteFind] at hnone
        by_cases h : pat.isPrefixOf (b :: t)
        · simp [h] at hnone
        · simp only [h, Bool.false_eq_true, if_false, Option.map_eq_none'] at hnone
          cases j with
          | zero =>
              rw [List.drop_zero]
              exact h
          | succ j' =>
              rw [List.drop_succ_cons]
              exact ih.mp hnone j'
      · intro hall
        have h0 := hall 0
        rw [List.drop_zero] at h0
        rw [byteFind]
        simp only [h0, Bool.false_eq_true, if_false, Option.map_eq_none']
        apply ih.mpr
        intro j
        have := hall (j + 1)
        rwa [List.drop_succ_cons] at this

theorem byteFind_some {hay pat : List Nat} {i : Nat}
    (h : byteFind hay pat = some i) :
    pat.isPrefixOf (hay.drop i) = true ∧
      ∀ j < i, ¬ pat.isPrefixOf (hay.drop j) = true := by
  induction hay generalizing i with
  | nil =>
      rw [byteFind] at h
      by_cases hp : pat.isPrefixOf ([] : List Nat)
      · simp only [hp, if_true, Option.some.injEq] at h
        subst h
        exact ⟨by simpa using hp, fun j hj => absurd hj (Nat.not_lt_zero j)⟩
      · simp [hp] at h
  | cons b t ih =>
      rw [byteFind] at h
      by_cases hp : pat.isPrefixOf (b :: t)
      · simp only [hp, if_true, Option.some.injEq] at h
        subst h
        exact ⟨by simpa using hp, fun j hj => absurd hj (Nat.not_lt_zero j)⟩
      · simp only [hp, Bool.false_eq_true, if_false] at h
        cases hb : byteFind t pat with
        | none => rw [hb] at h; simp at h
        | some i' =>
            rw [hb] at h
            simp only [Option.map_some', Option.some.injEq] at h
            subst h
            obtain ⟨h1, h2⟩ := ih hb
            refine ⟨by simpa using h1, ?_⟩
            intro j hj
            cases j with
            | zero => simpa using hp
            | succ j' =>
                rw [List.drop_succ_cons]
                exact h2 j' (by omega)

/-- Minimum of two optional offsets, treating `none` as absent. -/
def minOpt : Option Nat → Option Nat → Option Nat
  | none, y => y
  | some x, none => some x
  | some x, some y => some (min x y)

theorem bestStep_minOpt (hay : List Nat) (best : Option Nat) (w : List Char) :
    bestStep hay best w = minOpt best (byteFind hay (lowerBytes w)) := by
  cases hf : byteFind hay (lowerBytes w) <;> cases best <;>
    simp [bestStep, minOpt, hf]

theorem bestLoop_step (hay : List Nat) (w : List Char) (rest : List (List Char))
    (best : Option Nat) :
    bestLoop hay (w :: rest) best =
      bestLoop hay rest (minOpt best (byteFind hay (lowerBytes w))) := by
  rw [bestLoop, bestStep_minOpt]

theorem bestLoop_acc (hay : List Nat) (ws : List (List Char)) :
    ∀ best, bestLoop hay ws best = minOpt best (bestLoop hay ws none) := by
  induction ws with
  | nil => intro best; cases best <;> rfl
  | cons w rest ih =>
      intro best
      rw [bestLoop_step, bestLoop_step, ih, ih (minOpt none (byteFind hay (lowerBytes w)))]
      cases best <;> cases byteFind hay (lowerBytes w) <;>
        cases bestLoop hay rest none <;> simp [minOpt, Nat.min_assoc]

/-- Some whitespace-delimited query term occurs (case-insensitively, at the
byte level) at offset `j` of the searched byte sequence. -/
def occursAt (hay : List Nat) (ws : List (List Char)) (j : Nat) : Prop :=
  ∃ w ∈ ws, (lowerBytes w).isPrefixOf (hay.drop j) = true

theorem bestLoop_char (hay : List Nat) :
    ∀ ws : List (List Char),
      (bestLoop hay ws none = none ↔ ∀ j, ¬ occursAt hay ws j)
      ∧ (∀ p, bestLoop hay ws none = some p →
          occursAt hay ws p ∧ ∀ j < p, ¬ occursAt hay ws j) := by
  intro ws
  induction ws with
  | nil =>
      constructor
      · simp [bestLoop, occursAt]
      · intro p h
        rw [bestLoop] at h
        cases h
  | cons w rest ih =>
      have hocc : ∀ j, occursAt hay (w :: rest) j ↔
          (lowerBytes w).isPrefixOf (hay.drop j) = true ∨ occursAt hay rest j := by
        intro j
        unfold occursAt
        exact List.exists_mem_cons_iff _ _ _
      have hstep : bestLoop hay (w :: rest) none =
          minOpt (byteFind hay (lowerBytes w)) (bestLoop hay rest none) := by
        rw [bestLoop_step, bestLoop_acc]
        cases byteFind hay (lowerBytes w) <;> rfl
      cases hf : byteFind hay (lowerBytes w) with
      | none =>
          have hnof := (byteFind_none_iff hay (lowerBytes w)).mp hf
          have htrans : ∀ j, occursAt hay (w :: rest) j ↔ occursAt hay rest j := by
            intro j
            rw [hocc j]
            simp [hnof j]
          rw [hf] at hstep
          constructor
          · rw [hstep]
            show bestLoop hay rest none = none ↔ _
            rw [ih.1]
            exact forall_congr' (fun j => not_congr (htrans j).symm)
          · intro p hp
            rw [hstep] at hp
            obtain ⟨h1, h2⟩ := ih.2 p hp
            exact ⟨(htrans p).mpr h1, fun j hj hcon => h2 j hj ((htrans j).mp hcon)⟩
      | some i =>
          obtain ⟨hi, hibelow⟩ := byteFind_some hf
          rw [hf] at hstep
          cases hN : bestLoop hay rest none with
          | none =>
              have hnorest := ih.1.mp hN
              rw [hN] at hstep
              constructor
              · rw [hstep]
                constructor
                · intro hcon; cases hcon
                · intro hall
                  exact absurd ((hocc i).mpr (Or.inl hi)) (hall i)
              · intro p hp
                rw [hstep] at hp
                cases hp
                refine ⟨(hocc i).mpr (Or.inl hi), ?_⟩
                intro j hj hcon
                rcases (hocc j).mp hcon with hcase | hcase
                · exact hibelow j hj hcase
                · exact hnorest j hcase
          | some m =>
              obtain ⟨hm, hmbelow⟩ := ih.2 m hN
              rw [hN] at hstep
              constructor
              · rw [hstep]
                constructor
                · intro hcon; cases hcon
                · intro hall
                  exact absurd ((hocc m).mpr (Or.inr hm)) (hall m)
              · intro p hp
                rw [hstep] at hp
                have hpmin : p = min i m := by
                  cases hp
                  rfl
                subst hpmin
                constructor
                · rcases Nat.le_total i m with hle | hle
                  · rw [Nat.min_eq_left hle]
                    exact (hocc i).mpr (Or.inl hi)
                  · rw [Nat.min_eq_right hle]
                    exact (hocc m).mpr (Or.inr hm)
                · intro j hj hcon
                  have hji : j < i := lt_of_lt_of_le hj (Nat.min_le_left i m)
                  have hjm : j < m := lt_of_lt_of_le hj (Nat.min_le_right i m)
                  rcases (hocc j).mp hcon with hcase | hcase
                  · exact hibelow j hji hcase
                  · exact hmbelow j hjm hcase

/-- A whitespace-delimited term of the query occurs case-insensitively at
byte offset `j` of the content. -/
def termOccursAt (text query : List Char) (j : Nat) : Prop :=
  occursAt (lowerBytes text) (rustSplitWhitespace query) j

theorem best_index_least {text query : List Char} {p : Nat} :
    best_index text query = some p ↔
      termOccursAt text query p ∧ ∀ j < p, ¬ termOccursAt text query j := by
  constructor
  · exact (bestLoop_char (lowerBytes text) (rustSplitWhitespace query)).2 p
  · rintro ⟨hp, hleast⟩
    cases hb : best_index text query with
    | none =>
        exact absurd hp
          (((bestLoop_char (lowerBytes text) (rustSplitWhitespace query)).1.mp hb) p)
    | some q =>
        obtain ⟨hq, hqleast⟩ :=
          (bestLoop_char (lowerBytes text) (rustSplitWhitespace query)).2 q hb
        have h1 : ¬ q < p := fun h => hleast q h hq
        have h2 : ¬ p < q := fun h => hqleast p h hp
        have heq : p = q := by omega
        rw [heq]

/-- C4 (amended): the searched offset is the earliest byte offset in the
case-folded content at which any whitespace-delimited query term occurs; when
no term occurs the result is the first 100 characters of the content
unmodified; when a term is found and the 50-byte window around the offset,
clamped to the content, slices on character boundaries, the result is that
window whitespace-trimmed and wrapped in ellipsis markers; for the content
`The quick brown fox jumps` and query `brown` the result contains `brown`
and has at most 103 characters. -/
theorem extract_snippet_spec :
    (∀ (text query : String) (p : Nat),
      best_index text.data query.data = some p ↔
        (termOccursAt text.data query.data p ∧
          ∀ j < p, ¬ termOccursAt text.data query.data j))
    ∧ (∀ text query : String,
        best_index text.data query.data = none →
          extract_snippet text query = some (String.mk (text.data.take 100)))
    ∧ (∀ (text query : String) (p : Nat) (w : List Char),
        best_index text.data query.data = some p →
        rustSliceBytes text.data (if p > 50 then p - 50 else 0)
            (min (byteLen text.data) (p + 50)) = some w →
        extract_snippet text query
          = some ("..." ++ String.mk (rustTrim w) ++ "..."))
    ∧ (extract_snippet "The quick brown fox jumps" "brown"
          = some "...The quick brown fox jumps..."
        ∧ "brown".data <:+: "...The quick brown fox jumps...".data
        ∧ "...The quick brown fox jumps...".length ≤ 103) := by
  refine ⟨fun text query p => best_index_least, ?_, ?_, by decide, by decide, by decide⟩
  · intro text query h
    rw [extract_snippet, h]
  · intro text query p w hp hw
    rw [extract_snippet, hp]
    simp only [hw, Option.map_some']

/-- C4 as frozen is falsified by the `trim`: for content with leading
whitespace inside the window, the returned snippet is not the raw content
window wrapped in ellipsis markers. -/
theorem extract_snippet_counterexample :
    extract_snippet "  brown" "brown" = some "...brown..."
    ∧ some "...brown..." ≠ some ("..." ++ "  brown" ++ "...") := by
  constructor
  · decide
  · decide

/-- Witness for C4 at concrete inputs exercising the no-match branch. -/
theorem extract_snippet_spec_witness :
    extract_snippet "alpha" "zzz" = some (String.mk ("alpha".data.take 100)) :=
  extract_snippet_spec.2.1 "alpha" "zzz" (by decide)

/-- C5 is violated by the code: on content whose 50-byte window boundary
falls inside a multi-byte character, the Rust slice `text[start..end]`
panics; at this input the model yields the panic value. -/
theorem extract_snippet_panic_input :
    extract_snippet (String.mk ('a' :: List.replicate 30 'é')) "a" = none := by
  decide

/-- A generic structured value, as produced by parsing YAML frontmatter and
converting it to JSON (`serde_json::Value`). -/
inductive JValue where
  | null
  | bool (b : Bool)
  | num (n : Int)
  | str (s : String)
  | arr (elems : List JValue)
  | obj (entries : List (String × JValue))

/-- The frontmatter split of `note_content` (`src/main.rs`, lines 134-151):
if the raw text starts with `---` and contains `\n---\n`, the bytes strictly
between `---\n` and the closing delimiter are parsed (any parse or
conversion failure degrades to an empty object via `unwrap_or_else`); the
body is everything after the closing delimiter. `parse_yaml` models the
external `serde_yaml::from_str` composed with `serde_json::to_value`;
`none` models a parse failure. The result `none` models a Rust panic in the
byte-range slicing. -/
def note_content_extract (parse_yaml : String → Option JValue) (raw : String) :
    Option (JValue × String) :=
  if (utf8Bytes "---".data).isPrefixOf (utf8Bytes raw.data) then
    match byteFind (utf8Bytes raw.data) (utf8Bytes "\n---\n".data) with
    | some endIndex =>
        (rustSliceBytes raw.data 4 endIndex).bind fun fmStr =>
          (rustSliceBytes raw.data (endIndex + 5) (byteLen raw.data)).map
            fun body =>
              ((parse_yaml (String.mk fmStr)).getD (JValue.obj []),
                String.mk body)
    | none => some (JValue.obj [], raw)
  else some (JValue.obj [], raw)

/-- Insertion into a JSON object map (`serde_json::Map::insert`): replace the
value when the key is present, append the entry otherwise. -/
def json_insert : List (String × JValue) → String → JValue →
    List (String × JValue)
  | [], k, v => [(k, v)]
  | (k0, v0) :: rest, k, v =>
      if k0 = k then (k0, v) :: rest else (k0, v0) :: json_insert rest k v

/-- Lookup of a key in a JSON object map: the value of the first entry with
that key. -/
def jlookup : List (String × JValue) → String → Option JValue
  | [], _ => none
  | (k0, v0) :: rest, k => if k0 == k then some v0 else jlookup rest k

/-- The timestamp injection of `note_content` (`src/main.rs`, lines 153-158):
insert `last_modified` into an object frontmatter, or replace a non-object
frontmatter wholesale by a fresh object holding only that field. -/
def inject_last_modified (fm : JValue) (modified_str : String) : JValue :=
  match fm with
  | .obj entries =>
      .obj (json_insert entries "last_modified" (.str modified_str))
  | _ => .obj [("last_modified", .str modified_str)]

/-- The frontmatter-and-body result of `note_content`: extraction followed by
timestamp injection. -/
def note_content_frontmatter (parse_yaml : String → Option JValue)
    (raw modified_str : String) : Option (JValue × String) :=
  (note_content_extract parse_yaml raw).map
    fun fb => (inject_last_modified fb.1 modified_str, fb.2)

/-- C6 is violated by the code: on a note whose frontmatter block is empty,
the closing delimiter `\n---\n` is found at byte offset 3, and the slice
`raw[4..3]` panics (start greater than end); the model yields the panic
value instead of an empty-object frontmatter. -/
theorem note_content_extract_panic_input :
    ∀ parse_yaml : String → Option JValue,
      note_content_extract parse_yaml "---\n---\nBody" = none := by
  intro parse_yaml
  rfl

/-- C7: when the raw text does not start with the three-dash marker, the
frontmatter is an empty object and the body is the whole input unchanged. -/
theorem note_content_extract_no_marker :
    ∀ (parse_yaml : String → Option JValue) (raw : String),
      (utf8Bytes "---".data).isPrefixOf (utf8Bytes raw.data) = false →
      note_content_extract parse_yaml raw = some (JValue.obj [], raw) := by
  intro parse_yaml raw h
  rw [note_content_extract]
  simp [h]

/-- Witness for C7 on a marker-free input. -/
theorem note_content_extract_no_marker_witness :
    note_content_extract (fun _ => none) "plain text, no markers"
      = some (JValue.obj [], "plain text, no markers") :=
  note_content_extract_no_marker (fun _ => none) "plain text, no markers"
    (by decide)

theorem jlookup_json_insert_self (entries : List (String × JValue))
    (k : String) (v : JValue) :
    jlookup (json_insert entries k v) k = some v := by
  induction entries with
  | nil => simp [json_insert, jlookup]
  | cons e rest ih =>
      obtain ⟨k0, v0⟩ := e
      rw [json_insert]
      by_cases h : k0 = k
      · simp [h, jlookup]
      · have hbeq : (k0 == k) = false := beq_eq_false_iff_ne.mpr h
        simp [h, jlookup, hbeq, ih]

theorem jlookup_json_insert_other (entries : List (String × JValue))
    (k k' : String) (v : JValue) (hne : k' ≠ k) :
    jlookup (json_insert entries k v) k' = jlookup entries k' := by
  induction entries with
  | nil =>
      have hbeq : (k == k') = false := beq_eq_false_iff_ne.mpr (Ne.symm hne)
      simp [json_insert, jlookup, hbeq]
  | cons e rest ih =>
      obtain ⟨k0, v0⟩ := e
      rw [json_insert]
      by_cases h : k0 = k
      · have hkk : ¬ k = k' := fun hc => hne hc.symm
        simp [h, jlookup, hkk]
      · simp [h, jlookup, ih]

/-- C8: injecting the timestamp into an object frontmatter inserts the
`last_modified` field and leaves every other key unchanged; a non-object
frontmatter is replaced wholesale by a fresh object holding only that
field. -/
theorem inject_last_modified_spec :
    (∀ (entries : List (String × JValue)) (modified_str : String),
      inject_last_modified (.obj entries) modified_str
          = .obj (json_insert entries "last_modified" (.str modified_str))
        ∧ jlookup (json_insert entries "last_modified" (.str modified_str))
            "last_modified" = some (.str modified_str)
        ∧ ∀ k, k ≠ "last_modified" →
            jlookup (json_insert entries "last_modified" (.str modified_str)) k
              = jlookup entries k)
    ∧ (∀ (fm : JValue) (modified_str : String),
        (∀ entries, fm ≠ .obj entries) →
        inject_last_modified fm modified_str
          = .obj [("last_modified", .str modified_str)]) := by
  constructor
  · intro entries modified_str
    refine ⟨rfl, jlookup_json_insert_self entries _ _, ?_⟩
    intro k hk
    exact jlookup_json_insert_other entries _ k _ hk
  · intro fm modified_str h
    cases fm with
    | obj entries => exact absurd rfl (h entries)
    | null => rfl
    | bool b => rfl
    | num n => rfl
    | str s => rfl
    | arr elems => rfl

/-- Witness for C8 with a one-key object and a non-object frontmatter. -/
theorem inject_last_modified_spec_witness :
    jlookup (json_insert [("title", JValue.str "X")] "last_modified"
        (JValue.str "T")) "title"
      = jlookup [("title", JValue.str "X")] "title"
    ∧ inject_last_modified JValue.null "T"
      = JValue.obj [("last_modified", JValue.str "T")] :=
  ⟨(inject_last_modified_spec.1 [("title", JValue.str "X")] "T").2.2 "title"
      (by decide),
    inject_last_modified_spec.2 JValue.null "T"
      (fun entries h => JValue.noConfusion h)⟩

/-- C10: when the raw text starts with the three-dash marker but contains no
closing delimiter, the whole input (opening marker included) is returned as
the body, and the frontmatter is exactly the injected timestamp object. -/
theorem note_content_no_closing_delimiter :
    ∀ (parse_yaml : String → Option JValue) (raw modified_str : String),
      (utf8Bytes "---".data).isPrefixOf (utf8Bytes raw.data) = true →
      byteFind (utf8Bytes raw.data) (utf8Bytes "\n---\n".data) = none →
      note_content_frontmatter parse_yaml raw modified_str
        = some (.obj [("last_modified", .str modified_str)], raw) := by
  intro parse_yaml raw modified_str h1 h2
  rw [note_content_frontmatter, note_content_extract]
  simp only [h1, if_true, h2]
  rfl

/-- Witness for C10 on a note with an opening marker and no closing line. -/
theorem note_content_no_closing_delimiter_witness :
    note_content_frontmatter (fun _ => none) "---\ntitle: X" "T"
      = some (JValue.obj [("last_modified", JValue.str "T")], "---\ntitle: X") :=
  note_content_no_closing_delimiter (fun _ => none) "---\ntitle: X" "T"
    (by decide) (by decide)

/-- A document-level operation issued against the remote search index. -/
inductive RemoteOp where
  | deleteDoc (id : String)
  | queryWithFilter (filter : String)

/-- The `delete_from_search_index` function of `src/search.rs` as the
sequence of document-level operations it issues: it calls
`index.delete_document(id)` directly and performs no query. -/
def delete_from_search_index (id : String) : List RemoteOp :=
  [RemoteOp.deleteDoc id]

/-- Whether an operation is a query. -/
def isQueryOp : RemoteOp → Bool
  | .queryWithFilter _ => true
  | .deleteDoc _ => false

/-- Modelled from the spec: the search-engine collaborator's effect of one
operation on the indexed documents — delete by key removes any document with
that key (succeeding as a no-op when none matches); a query leaves the index
unchanged. The engine itself is an external collaborator with no code under
`src/`. -/
def applyRemoteOp (docs : List NoteDoc) : RemoteOp → List NoteDoc
  | .deleteDoc id => docs.filter (fun d => d.id != id)
  | .queryWithFilter _ => docs

/-- Effect of a sequence of remote operations on the indexed documents. -/
def applyRemoteOps (docs : List NoteDoc) (ops : List RemoteOp) : List NoteDoc :=
  ops.foldl applyRemoteOp docs

/-- C9 as frozen is falsified: the delete path issues no query at all — it
deletes directly by id. -/
theorem delete_from_search_index_counterexample :
    delete_from_search_index "notes/a.md" = [RemoteOp.deleteDoc "notes/a.md"]
    ∧ (delete_from_search_index "notes/a.md").any isQueryOp = false :=
  ⟨rfl, rfl⟩

/-- C9 (amended): deleting by relpath issues exactly one delete-by-id
operation (ids are relpaths) with no prior query, and deleting an id with no
matching indexed document leaves the index unchanged — a no-op success. -/
theorem delete_from_search_index_spec :
    (∀ id, delete_from_search_index id = [RemoteOp.deleteDoc id]
      ∧ (delete_from_search_index id).any isQueryOp = false)
    ∧ (∀ (id : String) (docs : List NoteDoc), (∀ d ∈ docs, d.id ≠ id) →
        applyRemoteOps docs (delete_from_search_index id) = docs) := by
  constructor
  · intro id
    exact ⟨rfl, rfl⟩
  · intro id docs h
    rw [applyRemoteOps, delete_from_search_index]
    rw [List.foldl_cons, List.foldl_nil, applyRemoteOp]
    apply List.filter_eq_self.mpr
    intro d hd
    exact bne_iff_ne.mpr (h d hd)

/-- Witness for C9 (amended): deleting an absent id is a no-op. -/
theorem delete_from_search_index_spec_witness :
    applyRemoteOps [⟨"b.md", "t", "c", "b.md"⟩]
        (delete_from_search_index "a.md")
      = [⟨"b.md", "t", "c", "b.md"⟩] :=
  delete_from_search_index_spec.2 "a.md" [⟨"b.md", "t", "c", "b.md"⟩]
    (by decide)

end Notemancy
